import Mathlib

/-!
Verification of the ABC evaluation core (crate `abcc`).

The crate's single source file declares the data model (`Error`,
`Constant`, `Variable`) and the `Container` / `Handler` trait contracts;
the concrete term store, rewriter, environment and collector are left to
implementations. Pure data and the trait signatures are embedded directly
from the source; every operation whose body the source does not provide is
modelled from the specification (its doc comment says so and from which
part of the spec it comes).

Terms are modelled twice, matching the two concerns of the spec:

* `Term`, a tree, for the rewriting engine, the structural predicates and
  the completion pass;
* `Node` / `Store`, an address-based arena with an environment, for the
  garbage collector, the environment lifecycle and the frame conditions of
  the query methods.
-/

/-- Error kinds, embedded from `enum Error` in the source. -/
inductive Error : Type where
  | Space
  | Time
  | Type
  | Assert
  | Syntax
  | Stub
  | Bug
  deriving DecidableEq, Repr

/-- The nine primitive combinators, embedded from `enum Constant`. -/
inductive Constant : Type where
  | Apply
  | Quote
  | Compose
  | Copy
  | Drop
  | Swap
  | Shift
  | Reset
  | Bang
  deriving DecidableEq, Repr

/-- A variable, embedded from `struct Variable(pub Rc<str>)`. -/
structure Variable : Type where
  name : String
  deriving DecidableEq, Repr

/-- Name validity, embedded from `Variable::read`: the source performs no
check (its body is `return Ok(Variable(name))`, marked `XXX TODO`), so
every name is currently valid. -/
def validName (_ : String) : Bool := true

/-- Embedded from `Variable::read`: wraps the given name, never failing,
since validation is currently permissive. -/
def Variable.read (name : String) : Except Error Variable :=
  .ok ⟨name⟩

/-- A term of the rewriting engine, modelled from the spec's data model
(section 3): exactly one of Identity, Constant, Variable, Comment, Quote
or Sequence. The source fixes only the trait constructors
(`new_identity` .. `new_sequence`); this tree realises them. -/
inductive Term : Type where
  | identity : Term
  | constant : Constant → Term
  | var : String → Term
  | comment : String → Term
  | quote : Term → Term
  | sequence : Term → Term → Term
  deriving DecidableEq, Repr

/-- Shallow shape test for the identity term (trait method `is_identity`). -/
def Term.is_identity : Term → Bool
  | .identity => true
  | _ => false

/-- Shallow shape test for constants (trait method `is_constant`). -/
def Term.is_constant : Term → Bool
  | .constant _ => true
  | _ => false

/-- Shallow shape test for variables (trait method `is_variable`). -/
def Term.is_variable : Term → Bool
  | .var _ => true
  | _ => false

/-- Shallow shape test for comments (trait method `is_comment`). -/
def Term.is_comment : Term → Bool
  | .comment _ => true
  | _ => false

/-- Shallow shape test for quotations (trait method `is_quote`). -/
def Term.is_quote : Term → Bool
  | .quote _ => true
  | _ => false

/-- Shallow shape test for sequences (trait method `is_sequence`). -/
def Term.is_sequence : Term → Bool
  | .sequence _ _ => true
  | _ => false

/-- Shallow test for `shift` or `reset` (trait method `is_prompt`). -/
def Term.is_prompt : Term → Bool
  | .constant .Shift => true
  | .constant .Reset => true
  | _ => false

/-- Shallow test for the bang combinator (trait method `is_bang`). -/
def Term.is_bang : Term → Bool
  | .constant .Bang => true
  | _ => false

/-- Modelled from the spec: the `has_*` trait methods are "true if any
descendant, including self, satisfies the corresponding `is_*`" (section
4.1); the source gives only their signatures. `hasP p` is that closure of
a shallow test `p` over the sub-term structure. -/
def Term.hasP (p : Term → Bool) : Term → Bool
  | .quote b => p (.quote b) || Term.hasP p b
  | .sequence a b => p (.sequence a b) || Term.hasP p a || Term.hasP p b
  | t => p t

/-- Modelled from the spec: trait method `has_constant`. -/
def Term.has_constant (t : Term) : Bool := t.hasP Term.is_constant

/-- Modelled from the spec: trait method `has_variable`. -/
def Term.has_variable (t : Term) : Bool := t.hasP Term.is_variable

/-- Modelled from the spec: trait method `has_comment`. -/
def Term.has_comment (t : Term) : Bool := t.hasP Term.is_comment

/-- Modelled from the spec: trait method `has_quote`. -/
def Term.has_quote (t : Term) : Bool := t.hasP Term.is_quote

/-- Modelled from the spec: trait method `has_prompt`. -/
def Term.has_prompt (t : Term) : Bool := t.hasP Term.is_prompt

/-- Modelled from the spec: trait method `has_bang`. -/
def Term.has_bang (t : Term) : Bool := t.hasP Term.is_bang

/-- The descendants of a term, the term itself included; the reference
point for the `has_*` methods. -/
def Term.subterms : Term → List Term
  | .quote b => .quote b :: b.subterms
  | .sequence a b => .sequence a b :: (a.subterms ++ b.subterms)
  | t => [t]

/-- The names of the variable occurrences of a term, quote bodies
included. -/
def Term.varsOf : Term → List String
  | .var v => [v]
  | .quote b => b.varsOf
  | .sequence a b => a.varsOf ++ b.varsOf
  | _ => []

/-- An environment for the completion pass: variable names bound to
terms. -/
abbrev Env := List (String × Term)

/-- Modelled from the spec: trait method `complete` (section 4.4).
Resolves each variable occurrence against the environment, substituting
the bound term in place of the occurrence; an unbound variable is left
untouched, and nothing is rewritten. -/
def Term.complete (e : Env) : Term → Term
  | .var v =>
    match e.lookup v with
    | some t => t
    | none => .var v
  | .quote b => .quote (b.complete e)
  | .sequence a b => .sequence (a.complete e) (b.complete e)
  | t => t

/-- Decidable equality of computation results, for concrete evaluation. -/
instance exceptDecEq {e a : Type} [DecidableEq e] [DecidableEq a] : DecidableEq (Except e a)
  | .ok x, .ok y => decidable_of_iff (x = y) (by simp)
  | .ok _, .error _ => isFalse (by simp)
  | .error _, .ok _ => isFalse (by simp)
  | .error x, .error y => decidable_of_iff (x = y) (by simp)

/-- The flat word list of a term: `Identity` contributes nothing and a
`Sequence` the concatenation of its parts, so a term is a list of atoms
(constants, variables, comments, quotations). The rewriter, modelled from
the spec, drives rewriting over this spine. -/
def Term.flat : Term → List Term
  | .identity => []
  | .sequence a b => a.flat ++ b.flat
  | t => [t]

/-- Rebuild a term from a flat word list; the empty list is the identity
program. -/
def unflatten : List Term → Term
  | [] => .identity
  | [t] => t
  | t :: rest => .sequence t (unflatten rest)

/-- A handler for bang operations, embedded from `trait Handler`: given
the argument terms it returns the replacement terms or fails. (The
mutable store access the trait also passes is not needed by the rewrite
relation itself.) -/
abbrev HandlerFn := List Term → Except Error (List Term)

/-- Outcome of scanning for the leftmost redex: the scan finished with
the stuck values accumulated (a normal form), or a combinator fires over
them, or the scan failed. -/
inductive Scan : Type where
  | finished (done : List Term) : Scan
  | fire (c : Constant) (done : List Term) (rest : List Term) : Scan
  | fail (e : Error) : Scan
  deriving DecidableEq, Repr

/-- Modelled from the spec: the leftmost-outermost redex search of the
rewriter (section 4.2). `done` holds the stuck values already passed
over, most recent first. Identity words are dropped, values (quotations,
comments, variables) are stuck and passed over, a constant fires — except
`Bang`, which fires only when `exec` is set (during `execute`) and is
stuck for `normalize`. A `Sequence` word would break the flat-spine
invariant and is reported as a `Bug`. -/
def findRedex (exec : Bool) (done : List Term) : List Term → Scan
  | [] => .finished done
  | .identity :: rest => findRedex exec done rest
  | .sequence _ _ :: _ => .fail .Bug
  | .constant c :: rest =>
    if c = .Bang ∧ exec = false then findRedex exec (.constant c :: done) rest
    else .fire c done rest
  | t :: rest => findRedex exec (t :: done) rest

/-- Split a word list at the first `Reset`, the near end of the delimited
region a `Shift` captures; `none` when no `Reset` is pending. -/
def splitAtReset : List Term → Option (List Term × List Term)
  | [] => none
  | t :: rest =>
    if t = .constant .Reset then some ([], rest)
    else (splitAtReset rest).map (fun pr => (t :: pr.1, pr.2))

/-- Modelled from the spec: one rewrite of the fired combinator `c` over
the stuck values `done` (most recent first) and the pending words `rest`
(section 4.2). Returns the new values and pending words, or the Type
error the spec prescribes when the operands do not have the shape the
combinator needs. For `Bang` (fired only by `execute`) the handler `h`
receives every preceding value, in program order, and its results are
spliced in place of the operands and the bang, rewriting resuming on
them. -/
def applyRule (h : HandlerFn) :
    Constant → List Term → List Term → Except Error (List Term × List Term)
  | .Apply, .quote p :: d, rest => .ok (d, p.flat ++ rest)
  | .Apply, _, _ => .error .Type
  | .Quote, v :: d, rest => .ok (.quote v :: d, rest)
  | .Quote, [], _ => .error .Type
  | .Compose, .quote q :: .quote p :: d, rest =>
    .ok (.quote (.sequence p q) :: d, rest)
  | .Compose, _, _ => .error .Type
  | .Copy, v :: d, rest => .ok (v :: v :: d, rest)
  | .Copy, [], _ => .error .Type
  | .Drop, _ :: d, rest => .ok (d, rest)
  | .Drop, [], _ => .error .Type
  | .Swap, y :: x :: d, rest => .ok (x :: y :: d, rest)
  | .Swap, _, _ => .error .Type
  | .Shift, .quote p :: d, rest =>
    match splitAtReset rest with
    | some (captured, after) =>
      .ok (d, .quote (unflatten captured) :: (p.flat ++ (.constant .Reset :: after)))
    | none => .error .Type
  | .Shift, _, _ => .error .Type
  | .Reset, d, rest => .ok (d, rest)
  | .Bang, d, rest =>
    match h d.reverse with
    | .ok rs => .ok ([], (rs.map Term.flat).flatten ++ rest)
    | .error e => .error e

/-- Modelled from the spec: the effort-bounded rewriting loop shared by
`normalize` and `execute` (sections 4.2 and 4.3). Each fired combinator
costs one unit of the effort quota `fuel`; locating the redex and passing
over stuck values is free. When a redex is due but the quota is zero the
loop fails with `Time`. -/
def run (exec : Bool) (h : HandlerFn) :
    Nat → List Term → List Term → Except Error Term
  | fuel, done, todo =>
    match findRedex exec done todo with
    | .finished d => .ok (unflatten d.reverse)
    | .fail e => .error e
    | .fire c d rest =>
      match fuel with
      | 0 => .error .Time
      | f + 1 =>
        match applyRule h c d rest with
        | .ok (d2, todo2) => run exec h f d2 todo2
        | .error e => .error e

/-- A handler that is never consulted; `normalize` passes it to the
shared loop, in which `Bang` never fires outside execute mode. -/
def noHandler : HandlerFn := fun _ => .error .Bug

/-- Modelled from the spec: trait method `normalize` — rewrite to normal
form under the effort quota, leaving `Bang` stuck. -/
def Term.normalize (fuel : Nat) (t : Term) : Except Error Term :=
  run false noHandler fuel [] t.flat

/-- Modelled from the spec: trait method `execute` — like `normalize`,
but `Bang` redexes are delegated to the handler. -/
def Term.execute (h : HandlerFn) (fuel : Nat) (t : Term) : Except Error Term :=
  run true h fuel [] t.flat

/-- A term node of the arena-based Term Store, modelled from the spec's
design note on shared ownership (section 9): immutable nodes addressed by
index, sub-terms referenced by address. -/
inductive Node : Type where
  | identity : Node
  | constant : Constant → Node
  | var : String → Node
  | comment : String → Node
  | quote : Nat → Node
  | sequence : Nat → Nat → Node
  deriving DecidableEq, Repr

/-- The addresses of the immediate sub-terms of a node. -/
def Node.children : Node → List Nat
  | .quote b => [b]
  | .sequence a b => [a, b]
  | _ => []

/-- Modelled from the spec: the Term Store (section 3) — it owns all term
nodes and the Environment; `next` is the next fresh address. The source
gives only the `Container` trait over an abstract object type. -/
structure Store : Type where
  next : Nat
  nodes : List (Nat × Node)
  env : List (String × Nat)
  deriving DecidableEq, Repr

/-- Read the node at an address, when the store still holds it. -/
def Store.lookupNode (s : Store) (a : Nat) : Option Node :=
  s.nodes.lookup a

/-- Every address that occurs as a child of some node of the store. -/
def Store.childUniverse (s : Store) : Finset Nat :=
  s.nodes.toFinset.biUnion (fun p => p.2.children.toFinset)

/-- Addresses bound by the Environment; they are implicitly rooted for
collection. -/
def Store.envAddrs (s : Store) : Finset Nat :=
  (s.env.map Prod.snd).toFinset

/-- One round of marking: keep everything marked and add the children of
every store entry whose address is marked. -/
def markStep (s : Store) (m : Finset Nat) : Finset Nat :=
  m ∪ (s.nodes.filter (fun p => decide (p.1 ∈ m))).toFinset.biUnion
    (fun p => p.2.children.toFinset)

/-- Mark to saturation: iterating one round often enough to reach the
fixed point (the chain grows inside `init ∪ childUniverse`). -/
def reachFinset (s : Store) (init : Finset Nat) : Finset Nat :=
  (markStep s)^[(init ∪ s.childUniverse).card] init

/-- The live addresses for a collection: everything marked from the given
roots together with the Environment's bindings. -/
def liveSet (s : Store) (roots : List Nat) : Finset Nat :=
  reachFinset s (roots.toFinset ∪ s.envAddrs)

/-- Modelled from the spec: trait method `collect` (section 4.1) —
mark-and-sweep. Starting from the given roots and the Environment values,
mark every reachable node, then drop every unmarked node from the store.
The trait's return value is `Ok(())`; the model returns the swept
store. -/
def Store.collect (s : Store) (roots : List Nat) : Store :=
  { s with nodes := s.nodes.filter (fun p => decide (p.1 ∈ liveSet s roots)) }

/-- An address is reachable when it is a root, an Environment binding, or
a child of a reachable store entry; the specification's notion of a term
that must survive collection. -/
inductive Reaches (s : Store) (roots : List Nat) : Nat → Prop where
  | root {a : Nat} : a ∈ roots → Reaches s roots a
  | env {k : String} {a : Nat} : (k, a) ∈ s.env → Reaches s roots a
  | child {a b : Nat} {n : Node} : Reaches s roots a → (a, n) ∈ s.nodes →
      b ∈ n.children → Reaches s roots b

/-- Embedded from trait method `get` (`&self`): a non-mutating lookup of
the binding of a variable, returning an optional object. -/
def Store.get (s : Store) (k : Variable) : Except Error (Option Nat) × Store :=
  (.ok (s.env.lookup k.name), s)

/-- Modelled from the spec: trait method `put` (sections 3 and 4.5) —
upsert a binding, returning the previous value if any. The trait fixes
the return type to an object, so when the key was unbound the call
returns the value just stored. -/
def Store.put (s : Store) (k : Variable) (v : Nat) : Except Error Nat × Store :=
  match s.env.lookup k.name with
  | some old =>
    (.ok old, { s with env := (k.name, v) :: s.env.filter (fun p => !(p.1 == k.name)) })
  | none => (.ok v, { s with env := (k.name, v) :: s.env })

/-- Modelled from the spec: trait method `delete` (sections 3 and 4.5) —
remove a binding and return the removed value; fail, leaving the store
untouched, when the key is absent. -/
def Store.delete (s : Store) (k : Variable) : Except Error Nat × Store :=
  match s.env.lookup k.name with
  | some old => (.ok old, { s with env := s.env.filter (fun p => !(p.1 == k.name)) })
  | none => (.error .Type, s)

/-- Embedded from trait method `new_identity` (`&self`): it cannot grow
the store, so the identity program is a canonical preallocated object,
address 0 by convention. -/
def Store.new_identity (s : Store) : Except Error Nat × Store :=
  (.ok 0, s)

/-- Modelled from the spec: trait method `new_constant` — allocate a
fresh node. -/
def Store.new_constant (s : Store) (c : Constant) : Except Error Nat × Store :=
  (.ok s.next, { s with next := s.next + 1, nodes := s.nodes ++ [(s.next, .constant c)] })

/-- Modelled from the spec: trait method `new_variable`. -/
def Store.new_variable (s : Store) (v : Variable) : Except Error Nat × Store :=
  (.ok s.next, { s with next := s.next + 1, nodes := s.nodes ++ [(s.next, .var v.name)] })

/-- Modelled from the spec: trait method `new_comment`. -/
def Store.new_comment (s : Store) (body : String) : Except Error Nat × Store :=
  (.ok s.next, { s with next := s.next + 1, nodes := s.nodes ++ [(s.next, .comment body)] })

/-- Modelled from the spec: trait method `new_quote`. -/
def Store.new_quote (s : Store) (body : Nat) : Except Error Nat × Store :=
  (.ok s.next, { s with next := s.next + 1, nodes := s.nodes ++ [(s.next, .quote body)] })

/-- Modelled from the spec: trait method `new_sequence`. -/
def Store.new_sequence (s : Store) (a b : Nat) : Except Error Nat × Store :=
  (.ok s.next, { s with next := s.next + 1, nodes := s.nodes ++ [(s.next, .sequence a b)] })

/-- Evaluate a shallow node test at an address, false when the address is
absent. -/
def Store.nodeTest (s : Store) (p : Node → Bool) (a : Nat) : Bool :=
  match s.lookupNode a with
  | some n => p n
  | none => false

/-- Run a shallow shape query as the trait does (`&self`): a result and
the untouched store; an absent address is a Type error, the object being
invalid. -/
def Store.shapeQ (s : Store) (p : Node → Bool) (a : Nat) : Except Error Bool × Store :=
  (match s.lookupNode a with
   | some n => .ok (p n)
   | none => .error .Type, s)

/-- Embedded from trait method `is_identity` (`&self`). -/
def Store.is_identityQ (s : Store) (a : Nat) : Except Error Bool × Store :=
  s.shapeQ (fun n => n matches .identity) a

/-- Embedded from trait method `is_constant` (`&self`). -/
def Store.is_constantQ (s : Store) (a : Nat) : Except Error Bool × Store :=
  s.shapeQ (fun n => n matches .constant _) a

/-- Embedded from trait method `is_variable` (`&self`). -/
def Store.is_variableQ (s : Store) (a : Nat) : Except Error Bool × Store :=
  s.shapeQ (fun n => n matches .var _) a

/-- Embedded from trait method `is_comment` (`&self`). -/
def Store.is_commentQ (s : Store) (a : Nat) : Except Error Bool × Store :=
  s.shapeQ (fun n => n matches .comment _) a

/-- Embedded from trait method `is_quote` (`&self`). -/
def Store.is_quoteQ (s : Store) (a : Nat) : Except Error Bool × Store :=
  s.shapeQ (fun n => n matches .quote _) a

/-- Embedded from trait method `is_sequence` (`&self`). -/
def Store.is_sequenceQ (s : Store) (a : Nat) : Except Error Bool × Store :=
  s.shapeQ (fun n => n matches .sequence _ _) a

/-- Embedded from trait method `is_prompt` (`&self`). -/
def Store.is_promptQ (s : Store) (a : Nat) : Except Error Bool × Store :=
  s.shapeQ (fun n => n matches .constant .Shift | .constant .Reset) a

/-- Embedded from trait method `is_bang` (`&self`). -/
def Store.is_bangQ (s : Store) (a : Nat) : Except Error Bool × Store :=
  s.shapeQ (fun n => n matches .constant .Bang) a

/-- The descendants of an object: every address marked from it alone. -/
def Store.descendants (s : Store) (a : Nat) : Finset Nat :=
  reachFinset s {a}

/-- Run a descendant query as the trait does (`&self`): true when some
descendant, the object itself included, passes the shallow test. -/
def Store.hasQ (s : Store) (p : Node → Bool) (a : Nat) : Except Error Bool × Store :=
  (.ok (decide (∃ b ∈ s.descendants a, s.nodeTest p b = true)), s)

/-- Modelled from the spec: trait method `has_constant` (`&self`). -/
def Store.has_constantQ (s : Store) (a : Nat) : Except Error Bool × Store :=
  s.hasQ (fun n => n matches .constant _) a

/-- Modelled from the spec: trait method `has_variable` (`&self`). -/
def Store.has_variableQ (s : Store) (a : Nat) : Except Error Bool × Store :=
  s.hasQ (fun n => n matches .var _) a

/-- Modelled from the spec: trait method `has_comment` (`&self`). -/
def Store.has_commentQ (s : Store) (a : Nat) : Except Error Bool × Store :=
  s.hasQ (fun n => n matches .comment _) a

/-- Modelled from the spec: trait method `has_quote` (`&self`). -/
def Store.has_quoteQ (s : Store) (a : Nat) : Except Error Bool × Store :=
  s.hasQ (fun n => n matches .quote _) a

/-- Modelled from the spec: trait method `has_prompt` (`&self`). -/
def Store.has_promptQ (s : Store) (a : Nat) : Except Error Bool × Store :=
  s.hasQ (fun n => n matches .constant .Shift | .constant .Reset) a

/-- Modelled from the spec: trait method `has_bang` (`&self`). -/
def Store.has_bangQ (s : Store) (a : Nat) : Except Error Bool × Store :=
  s.hasQ (fun n => n matches .constant .Bang) a

/-- Embedded from trait method `get_constant_name` (`&self`): fails with
a Type error on a term of the wrong variant. -/
def Store.get_constant_name (s : Store) (a : Nat) : Except Error Constant × Store :=
  (match s.lookupNode a with
   | some (.constant c) => .ok c
   | _ => .error .Type, s)

/-- Embedded from trait method `get_variable_name` (`&self`). -/
def Store.get_variable_name (s : Store) (a : Nat) : Except Error Variable × Store :=
  (match s.lookupNode a with
   | some (.var v) => .ok ⟨v⟩
   | _ => .error .Type, s)

/-- Embedded from trait method `get_comment_body` (`&self`). -/
def Store.get_comment_body (s : Store) (a : Nat) : Except Error String × Store :=
  (match s.lookupNode a with
   | some (.comment b) => .ok b
   | _ => .error .Type, s)

/-- Embedded from trait method `get_quote_body` (`&self`). -/
def Store.get_quote_body (s : Store) (a : Nat) : Except Error Nat × Store :=
  (match s.lookupNode a with
   | some (.quote b) => .ok b
   | _ => .error .Type, s)

/-- Embedded from trait method `get_sequence_fst` (`&self`). -/
def Store.get_sequence_fst (s : Store) (a : Nat) : Except Error Nat × Store :=
  (match s.lookupNode a with
   | some (.sequence x _) => .ok x
   | _ => .error .Type, s)

/-- Embedded from trait method `get_sequence_snd` (`&self`). -/
def Store.get_sequence_snd (s : Store) (a : Nat) : Except Error Nat × Store :=
  (match s.lookupNode a with
   | some (.sequence _ y) => .ok y
   | _ => .error .Type, s)

/-- The methods of the `Container` trait, one constructor per method of
the source (`show` is spelled `show_`, a Lean keyword otherwise). -/
inductive Method : Type where
  | read | show_ | get | put | delete
  | normalize | execute | complete
  | new_identity | new_constant | new_variable | new_comment | new_quote | new_sequence
  | is_identity | is_constant | is_variable | is_comment | is_quote | is_sequence
  | is_prompt | is_bang
  | has_constant | has_variable | has_comment | has_quote | has_prompt | has_bang
  | get_constant_name | get_variable_name | get_comment_body | get_quote_body
  | get_sequence_fst | get_sequence_snd
  | collect
  deriving DecidableEq, Fintype, Repr

/-- Embedded from the trait signatures: whether the method's receiver is
`&mut self` (true) or `&self` (false), read off the source line by
line. -/
def Method.takesMut : Method → Bool
  | .read => true
  | .show_ => false
  | .get => false
  | .put => true
  | .delete => true
  | .normalize => true
  | .execute => true
  | .complete => true
  | .new_identity => false
  | .new_constant => true
  | .new_variable => true
  | .new_comment => true
  | .new_quote => true
  | .new_sequence => true
  | .is_identity => false
  | .is_constant => false
  | .is_variable => false
  | .is_comment => false
  | .is_quote => false
  | .is_sequence => false
  | .is_prompt => false
  | .is_bang => false
  | .has_constant => false
  | .has_variable => false
  | .has_comment => false
  | .has_quote => false
  | .has_prompt => false
  | .has_bang => false
  | .get_constant_name => false
  | .get_variable_name => false
  | .get_comment_body => false
  | .get_quote_body => false
  | .get_sequence_fst => false
  | .get_sequence_snd => false
  | .collect => true

/-- The methods the claim under test lists as read-only: shape queries,
descendant queries, accessors, the Environment lookup and
`new_identity`. -/
def queryMethods : List Method :=
  [.is_identity, .is_constant, .is_variable, .is_comment, .is_quote, .is_sequence,
   .is_prompt, .is_bang,
   .has_constant, .has_variable, .has_comment, .has_quote, .has_prompt, .has_bang,
   .get_constant_name, .get_variable_name, .get_comment_body, .get_quote_body,
   .get_sequence_fst, .get_sequence_snd,
   .get, .new_identity]

/-- A flat word that is a stuck value for the rewriter: a quotation, a
comment or a variable. -/
def isValueAtom : Term → Bool
  | .quote _ => true
  | .comment _ => true
  | .var _ => true
  | _ => false

/-- Lawful-key lookup against a key-filtered association list: the lookup
goes through exactly when the key passes the filter. -/
theorem lookup_filter_key {α β : Type} [BEq α] [LawfulBEq α]
    (p : α → Bool) (l : List (α × β)) (a : α) :
    (l.filter (fun q => p q.1)).lookup a = if p a then l.lookup a else none := by
  induction l with
  | nil => simp
  | cons hd tl ih =>
    obtain ⟨k, v⟩ := hd
    cases hak : a == k with
    | true =>
      have ha : a = k := by simpa using hak
      subst ha
      cases hpk : p a with
      | true => simp [List.filter_cons, hpk, List.lookup_cons]
      | false => simp [List.filter_cons, hpk, ih]
    | false =>
      cases hpk : p k with
      | true => simp [List.filter_cons, hpk, List.lookup_cons, hak, ih]
      | false => simp [List.filter_cons, hpk, ih, List.lookup_cons, hak]

/-- A term is one of its own descendants. -/
theorem self_mem_subterms (t : Term) : t ∈ t.subterms := by
  cases t <;> simp [Term.subterms]

/-- The descendant closure of a shallow test agrees with scanning the
descendant list. -/
theorem hasP_eq_any (p : Term → Bool) (t : Term) :
    Term.hasP p t = t.subterms.any p := by
  induction t with
  | identity => simp [Term.hasP, Term.subterms]
  | constant c => simp [Term.hasP, Term.subterms]
  | var v => simp [Term.hasP, Term.subterms]
  | comment s => simp [Term.hasP, Term.subterms]
  | quote b ih => simp [Term.hasP, Term.subterms, ih]
  | sequence a b iha ihb =>
    simp [Term.hasP, Term.subterms, iha, ihb, Bool.or_assoc]

/-- C9: `Variable::read` validates the name — under the source's current
predicate every name is valid (the body is `Ok(Variable(name))`, the
check a `TODO`) — and for every (hence every valid) name it returns a
`Variable` wrapping exactly the given name; failing with a Syntax error
on an invalid name is satisfied vacuously, there being no invalid
name. -/
theorem variable_read_wraps_every_valid_name :
    ∀ name : String, validName name = true ∧ Variable.read name = .ok ⟨name⟩ :=
  fun _ => ⟨rfl, rfl⟩

/-- C8: each descendant query `has_X` holds exactly when some descendant,
the term itself included, passes the shallow test `is_X`; in particular a
term that is itself a constant satisfies `has_constant`. -/
theorem has_iff_descendant_is :
    ∀ t : Term,
      (t.has_constant = true ↔ ∃ s ∈ t.subterms, s.is_constant = true) ∧
      (t.has_variable = true ↔ ∃ s ∈ t.subterms, s.is_variable = true) ∧
      (t.has_comment = true ↔ ∃ s ∈ t.subterms, s.is_comment = true) ∧
      (t.has_quote = true ↔ ∃ s ∈ t.subterms, s.is_quote = true) ∧
      (t.has_prompt = true ↔ ∃ s ∈ t.subterms, s.is_prompt = true) ∧
      (t.has_bang = true ↔ ∃ s ∈ t.subterms, s.is_bang = true) ∧
      (t.is_constant = true → t.has_constant = true) := by
  intro t
  have base : ∀ p : Term → Bool,
      Term.hasP p t = true ↔ ∃ s ∈ t.subterms, p s = true := by
    intro p
    rw [hasP_eq_any]
    exact List.any_eq_true
  refine ⟨base _, base _, base _, base _, base _, base _, fun h => ?_⟩
  exact (base Term.is_constant).mpr ⟨t, self_mem_subterms t, h⟩

/-- C8 witness: the theorem evaluated at a concrete constant term. -/
theorem has_iff_descendant_is_witness :
    Term.has_constant (.constant .Apply) = true ∧
    Term.has_bang (.sequence (.quote (.constant .Bang)) (.var "z")) = true := by
  refine ⟨(has_iff_descendant_is (.constant .Apply)).2.2.2.2.2.2 rfl, ?_⟩
  exact ((has_iff_descendant_is (.sequence (.quote (.constant .Bang)) (.var "z"))).2.2.2.2.2.1).mpr
    ⟨.constant .Bang, by simp [Term.subterms], rfl⟩

/-- Variable occurrences are exactly what `has_variable` sees. -/
theorem varsOf_nil_of_no_variable (t : Term) (h : t.has_variable = false) :
    t.varsOf = [] := by
  induction t with
  | identity => rfl
  | constant c => rfl
  | var v => simp [Term.has_variable, Term.hasP, Term.is_variable] at h
  | comment s => rfl
  | quote b ih =>
    simp only [Term.has_variable, Term.hasP, Term.is_variable, Bool.false_or] at h
    exact ih h
  | sequence a b iha ihb =>
    simp only [Term.has_variable, Term.hasP, Term.is_variable, Bool.false_or,
      Bool.or_eq_false_iff] at h
    simp [Term.varsOf, iha h.1, ihb h.2]

/-- C6: completion substitutes the environment's binding for each bound
variable occurrence and leaves every unbound variable untouched, on every
term: at a variable it performs exactly the lookup, and on every other
term former it is the structural homomorphism (descending through quotes
and sequences, fixing identity, constants and comments), so a term with
no resolvable variable — in particular any variable-free term — comes
back unchanged. It performs no rewriting beyond substitution: any
function with exactly this per-occurrence substitution behavior coincides
with `complete` on every term. -/
theorem complete_substitutes_only :
    ∀ e : Env,
      (∀ (v : String) (t : Term), e.lookup v = some t → Term.complete e (.var v) = t) ∧
      (∀ v : String, e.lookup v = none → Term.complete e (.var v) = .var v) ∧
      (Term.complete e .identity = .identity) ∧
      (∀ c : Constant, Term.complete e (.constant c) = .constant c) ∧
      (∀ s : String, Term.complete e (.comment s) = .comment s) ∧
      (∀ b : Term, Term.complete e (.quote b) = .quote (b.complete e)) ∧
      (∀ a b : Term,
        Term.complete e (.sequence a b) = .sequence (a.complete e) (b.complete e)) ∧
      (∀ t : Term, (∀ v ∈ t.varsOf, e.lookup v = none) → t.complete e = t) ∧
      (∀ t : Term, t.has_variable = false → t.complete e = t) ∧
      (∀ f : Term → Term,
        (∀ (v : String) (t : Term), e.lookup v = some t → f (.var v) = t) →
        (∀ v : String, e.lookup v = none → f (.var v) = .var v) →
        f .identity = .identity →
        (∀ c : Constant, f (.constant c) = .constant c) →
        (∀ s : String, f (.comment s) = .comment s) →
        (∀ b : Term, f (.quote b) = .quote (f b)) →
        (∀ a b : Term, f (.sequence a b) = .sequence (f a) (f b)) →
        ∀ t : Term, f t = t.complete e) := by
  intro e
  have hbound : ∀ (v : String) (t : Term),
      e.lookup v = some t → Term.complete e (.var v) = t := by
    intro v t h
    simp [Term.complete, h]
  have hunbound : ∀ v : String, e.lookup v = none → Term.complete e (.var v) = .var v := by
    intro v h
    simp [Term.complete, h]
  have hopen : ∀ t : Term, (∀ v ∈ t.varsOf, e.lookup v = none) → t.complete e = t := by
    intro t
    induction t with
    | identity => intro _; rfl
    | constant c => intro _; rfl
    | var v =>
      intro h
      have := h v (by simp [Term.varsOf])
      simp [Term.complete, this]
    | comment s => intro _; rfl
    | quote b ih =>
      intro h
      have := ih (fun v hv => h v (by simpa [Term.varsOf] using hv))
      simp [Term.complete, this]
    | sequence a b iha ihb =>
      intro h
      have ha := iha (fun v hv => h v (by simp [Term.varsOf, hv]))
      have hb := ihb (fun v hv => h v (by simp [Term.varsOf, hv]))
      simp [Term.complete, ha, hb]
  refine ⟨hbound, hunbound, rfl, fun c => rfl, fun s => rfl, fun b => rfl,
    fun a b => rfl, hopen, ?_, ?_⟩
  · intro t h
    exact hopen t (by simp [varsOf_nil_of_no_variable t h])
  · intro f hfb hfu hfi hfc hfm hfq hfs t
    induction t with
    | identity => rw [hfi]; rfl
    | constant c => rw [hfc]; rfl
    | var v =>
      cases hl : e.lookup v with
      | some b => rw [hfb v b hl, hbound v b hl]
      | none => rw [hfu v hl, hunbound v hl]
    | comment s => rw [hfm]; rfl
    | quote b ih => rw [hfq, ih]; rfl
    | sequence a b iha ihb => rw [hfs, iha, ihb]; rfl

/-- C6 witness: the theorem evaluated at a concrete environment, on
terms with bound occurrences nested under a sequence and under a quote
as well as an unbound occurrence and a variable-free term. -/
theorem complete_substitutes_only_witness :
    Term.complete [("x", .comment "b")] (.sequence (.var "x") (.quote (.var "x"))) =
      .sequence (.comment "b") (.quote (.comment "b")) ∧
    Term.complete [("x", .comment "b")] (.sequence (.var "y") (.constant .Swap)) =
      .sequence (.var "y") (.constant .Swap) ∧
    Term.complete [("x", .comment "b")] (.constant .Swap) = .constant .Swap := by
  obtain ⟨hbound, hunbound, hid, hcon, hcom, hq, hseq, hopen, hnovar, huniq⟩ :=
    complete_substitutes_only [("x", .comment "b")]
  refine ⟨?_, ?_, ?_⟩
  · rw [hseq, hq, hbound "x" (.comment "b") rfl]
  · rw [hseq, hunbound "y" rfl, hcon]
  · exact hcon .Swap

/-- C3: sequencing with the identity program on either side does not
change the result of normalization, at every effort quota. -/
theorem normalize_identity_laws :
    ∀ (fuel : Nat) (X : Term),
      Term.normalize fuel (.sequence .identity X) = Term.normalize fuel X ∧
      Term.normalize fuel (.sequence X .identity) = Term.normalize fuel X := by
  intro fuel X
  constructor <;> simp [Term.normalize, Term.flat]

/-- C4: `put` has upsert semantics — after `put(k, v1)` a second
`put(k, v2)` returns the previous value `v1` and a subsequent `get(k)`
yields `v2`; in general `put` returns the previous value bound to the key
if any. -/
theorem put_upsert :
    (∀ (s : Store) (k : Variable) (v1 v2 : Nat),
      (((s.put k v1).2).put k v2).1 = .ok v1 ∧
      (((((s.put k v1).2).put k v2).2).get k).1 = .ok (some v2)) ∧
    (∀ (s : Store) (k : Variable) (v w : Nat),
      (s.get k).1 = .ok (some w) → (s.put k v).1 = .ok w) := by
  constructor
  · intro s k v1 v2
    have h1 : ((s.put k v1).2).env.lookup k.name = some v1 := by
      cases h : s.env.lookup k.name <;> simp [Store.put, h, List.lookup_cons]
    have key : ∀ s1 : Store, s1.env.lookup k.name = some v1 →
        (s1.put k v2).1 = .ok v1 ∧ (((s1.put k v2).2).get k).1 = .ok (some v2) := by
      intro s1 hl
      constructor
      · simp [Store.put, hl]
      · simp [Store.put, hl, Store.get, List.lookup_cons]
    exact key _ h1
  · intro s k v w h
    have h2 : s.env.lookup k.name = some w := by
      simpa [Store.get] using h
    simp [Store.put, h2]

/-- C4 witness: the theorem evaluated at concrete stores. -/
theorem put_upsert_witness :
    ((((⟨0, [], []⟩ : Store).put ⟨"k"⟩ 1).2).put ⟨"k"⟩ 2).1 = .ok 1 ∧
    ((⟨0, [], [("k", 7)]⟩ : Store).put ⟨"k"⟩ 9).1 = .ok 7 := by
  refine ⟨(put_upsert.1 ⟨0, [], []⟩ ⟨"k"⟩ 1 2).1, ?_⟩
  exact put_upsert.2 ⟨0, [], [("k", 7)]⟩ ⟨"k"⟩ 9 7 rfl

/-- C5: `delete` returns the previously bound value and removes the
binding; it fails when the key is absent; a failed `delete` leaves the
store observably unchanged; and a single `put` always completes, so
neither mutator exhibits a partial update. -/
theorem delete_semantics :
    (∀ (s : Store) (k : Variable) (v : Nat),
      (s.get k).1 = .ok (some v) →
        (s.delete k).1 = .ok v ∧ (((s.delete k).2).get k).1 = .ok none) ∧
    (∀ (s : Store) (k : Variable),
      (s.get k).1 = .ok none → ∃ e, (s.delete k).1 = .error e) ∧
    (∀ (s : Store) (k : Variable) (e : Error),
      (s.delete k).1 = .error e → (s.delete k).2 = s) ∧
    (∀ (s : Store) (k : Variable) (v : Nat), ∃ r, (s.put k v).1 = .ok r) := by
  refine ⟨?_, ?_, ?_, ?_⟩
  · intro s k v h
    have h2 : s.env.lookup k.name = some v := by simpa [Store.get] using h
    refine ⟨by simp [Store.delete, h2], ?_⟩
    have h3 := lookup_filter_key (fun x => !(x == k.name)) s.env k.name
    simp only [beq_self_eq_true, Bool.not_true, Bool.false_eq_true, if_false] at h3
    simp [Store.delete, h2, Store.get, h3]
  · intro s k h
    have h2 : s.env.lookup k.name = none := by simpa [Store.get] using h
    exact ⟨.Type, by simp [Store.delete, h2]⟩
  · intro s k e h
    cases h2 : s.env.lookup k.name with
    | none => simp [Store.delete, h2]
    | some old => simp [Store.delete, h2] at h
  · intro s k v
    cases h2 : s.env.lookup k.name with
    | none => exact ⟨v, by simp [Store.put, h2]⟩
    | some old => exact ⟨old, by simp [Store.put, h2]⟩

/-- C5 witness: the theorem evaluated at concrete stores. -/
theorem delete_semantics_witness :
    ((⟨0, [], [("k", 7)]⟩ : Store).delete ⟨"k"⟩).1 = .ok 7 ∧
    (∃ e, ((⟨0, [], []⟩ : Store).delete ⟨"k"⟩).1 = .error e) ∧
    ((⟨0, [], []⟩ : Store).delete ⟨"k"⟩).2 = (⟨0, [], []⟩ : Store) := by
  refine ⟨(delete_semantics.1 ⟨0, [], [("k", 7)]⟩ ⟨"k"⟩ 7 rfl).1,
    delete_semantics.2.1 ⟨0, [], []⟩ ⟨"k"⟩ rfl, ?_⟩
  exact delete_semantics.2.2.1 ⟨0, [], []⟩ ⟨"k"⟩ .Type rfl

/-- C10: the shape and descendant queries, the accessors, the Environment
lookup `get` and `new_identity` take the container by immutable reference
(in the model: they return the store unchanged), while every other trait
method that constructs or mutates takes `&mut self` (`show` is neither a
constructor nor a mutator); the modelled constructors and mutators really
do change the store. -/
theorem query_methods_frame :
    (∀ m ∈ queryMethods, m.takesMut = false) ∧
    (∀ m : Method, m ∉ queryMethods → m ≠ .show_ → m.takesMut = true) ∧
    (∀ (s : Store) (k : Variable) (a : Nat),
      (s.get k).2 = s ∧ s.new_identity.2 = s ∧
      (s.is_identityQ a).2 = s ∧ (s.is_constantQ a).2 = s ∧
      (s.is_variableQ a).2 = s ∧ (s.is_commentQ a).2 = s ∧
      (s.is_quoteQ a).2 = s ∧ (s.is_sequenceQ a).2 = s ∧
      (s.is_promptQ a).2 = s ∧ (s.is_bangQ a).2 = s ∧
      (s.has_constantQ a).2 = s ∧ (s.has_variableQ a).2 = s ∧
      (s.has_commentQ a).2 = s ∧ (s.has_quoteQ a).2 = s ∧
      (s.has_promptQ a).2 = s ∧ (s.has_bangQ a).2 = s ∧
      (s.get_constant_name a).2 = s ∧ (s.get_variable_name a).2 = s ∧
      (s.get_comment_body a).2 = s ∧ (s.get_quote_body a).2 = s ∧
      (s.get_sequence_fst a).2 = s ∧ (s.get_sequence_snd a).2 = s) ∧
    (∀ (s : Store) (c : Constant) (v : Variable) (b : String) (x y : Nat),
      (s.new_constant c).2 ≠ s ∧ (s.new_variable v).2 ≠ s ∧
      (s.new_comment b).2 ≠ s ∧ (s.new_quote x).2 ≠ s ∧
      (s.new_sequence x y).2 ≠ s) ∧
    (∃ (s : Store) (k : Variable) (v : Nat), (s.put k v).2 ≠ s) ∧
    (∃ (s : Store) (k : Variable), (s.delete k).2 ≠ s) ∧
    (∃ (s : Store) (roots : List Nat), s.collect roots ≠ s) := by
  refine ⟨by decide, by decide, ?_, ?_, ?_, ?_, ?_⟩
  · intro s k a
    exact ⟨rfl, rfl, rfl, rfl, rfl, rfl, rfl, rfl, rfl, rfl, rfl, rfl, rfl,
      rfl, rfl, rfl, rfl, rfl, rfl, rfl, rfl, rfl⟩
  · intro s c v b x y
    refine ⟨?_, ?_, ?_, ?_, ?_⟩ <;>
      · intro h
        have hn := congrArg Store.next h
        simp [Store.new_constant, Store.new_variable, Store.new_comment,
          Store.new_quote, Store.new_sequence] at hn
  · exact ⟨⟨0, [], []⟩, ⟨"k"⟩, 0, by decide⟩
  · exact ⟨⟨0, [], [("k", 0)]⟩, ⟨"k"⟩, by decide⟩
  · exact ⟨⟨1, [(0, .comment "g")], []⟩, [], by decide⟩

/-- C10 witness: the theorem evaluated at concrete methods. -/
theorem query_methods_frame_witness :
    Method.takesMut .is_constant = false ∧ Method.takesMut .put = true :=
  ⟨query_methods_frame.1 .is_constant (by decide),
    query_methods_frame.2.1 .put (by decide) (by decide)⟩

/-- Unfolding equation of the shared rewriting loop. -/
theorem run_eq (exec : Bool) (h : HandlerFn) (fuel : Nat) (done todo : List Term) :
    run exec h fuel done todo =
      match findRedex exec done todo with
      | .finished d => .ok (unflatten d.reverse)
      | .fail e => .error e
      | .fire c d rest =>
        match fuel with
        | 0 => .error .Time
        | f + 1 =>
          match applyRule h c d rest with
          | .ok (d2, todo2) => run exec h f d2 todo2
          | .error e => .error e := by
  rw [run.eq_def]

/-- Raising the effort quota preserves a successful run and its result. -/
theorem run_mono (exec : Bool) (h : HandlerFn) :
    ∀ (fuel k : Nat) (done todo : List Term) (r : Term),
      run exec h fuel done todo = .ok r → run exec h (fuel + k) done todo = .ok r := by
  intro fuel
  induction fuel with
  | zero =>
    intro k done todo r hr
    rw [run_eq] at hr ⊢
    cases hfr : findRedex exec done todo with
    | finished d => simp only [hfr] at hr ⊢; exact hr
    | fail e => simp only [hfr] at hr ⊢; exact hr
    | fire c d rest => simp only [hfr] at hr; exact absurd hr (by simp)
  | succ f ih =>
    intro k done todo r hr
    rw [run_eq] at hr ⊢
    cases hfr : findRedex exec done todo with
    | finished d => simp only [hfr] at hr ⊢; exact hr
    | fail e => simp only [hfr] at hr ⊢; exact hr
    | fire c d rest =>
      simp only [hfr] at hr ⊢
      have hadd : f + 1 + k = (f + k) + 1 := by omega
      rw [hadd]
      cases har : applyRule h c d rest with
      | ok pr =>
        obtain ⟨d2, todo2⟩ := pr
        simp only [har] at hr ⊢
        exact ih k d2 todo2 r hr
      | error e =>
        simp only [har] at hr
        exact absurd hr (by simp)

/-- A run that fails at some quota while a larger quota succeeds can only
have failed by exhausting the quota: the error is `Time`. -/
theorem run_error_time (exec : Bool) (h : HandlerFn) :
    ∀ (fuel k : Nat) (done todo : List Term) (e : Error) (r : Term),
      run exec h fuel done todo = .error e →
      run exec h (fuel + k) done todo = .ok r → e = .Time := by
  intro fuel
  induction fuel with
  | zero =>
    intro k done todo e r herr hok
    rw [run_eq] at herr hok
    cases hfr : findRedex exec done todo with
    | finished d => simp only [hfr] at herr; exact absurd herr (by simp)
    | fail e2 => simp only [hfr] at herr hok; exact absurd hok (by simp)
    | fire c d rest =>
      simp only [hfr] at herr
      have h2 : Error.Time = e := by simpa using herr
      exact h2.symm
  | succ f ih =>
    intro k done todo e r herr hok
    rw [run_eq] at herr hok
    cases hfr : findRedex exec done todo with
    | finished d => simp only [hfr] at herr; exact absurd herr (by simp)
    | fail e2 => simp only [hfr] at herr hok; exact absurd hok (by simp)
    | fire c d rest =>
      simp only [hfr] at herr hok
      have hadd : f + 1 + k = (f + k) + 1 := by omega
      rw [hadd] at hok
      cases har : applyRule h c d rest with
      | ok pr =>
        obtain ⟨d2, todo2⟩ := pr
        simp only [har] at herr hok
        exact ih k d2 todo2 e r herr hok
      | error e2 =>
        simp only [har] at herr hok
        exact absurd hok (by simp)

/-- C7: effort monotonicity — a normalization that succeeds under quota
Q succeeds with the same result under any quota of at least Q; and a
failure that a larger quota turns into success can only be the quota
running out before normal form, a `Time` error. -/
theorem normalize_effort_monotone :
    (∀ (t : Term) (q1 q2 : Nat) (r : Term), q1 ≤ q2 →
      Term.normalize q1 t = .ok r → Term.normalize q2 t = .ok r) ∧
    (∀ (t : Term) (q1 q2 : Nat) (e : Error) (r : Term), q1 ≤ q2 →
      Term.normalize q1 t = .error e → Term.normalize q2 t = .ok r → e = .Time) := by
  constructor
  · intro t q1 q2 r hle hok
    obtain ⟨k, rfl⟩ := Nat.exists_eq_add_of_le hle
    exact run_mono false noHandler q1 k [] t.flat r hok
  · intro t q1 q2 e r hle herr hok
    obtain ⟨k, rfl⟩ := Nat.exists_eq_add_of_le hle
    exact run_error_time false noHandler q1 k [] t.flat e r herr hok

/-- C7 witness: the theorem evaluated at a concrete term and quotas. -/
theorem normalize_effort_monotone_witness :
    Term.normalize 2 (.sequence (.quote .identity) (.constant .Apply)) = .ok .identity ∧
    Error.Time = Error.Time := by
  constructor
  · exact normalize_effort_monotone.1 (.sequence (.quote .identity) (.constant .Apply))
      1 2 .identity (by decide) rfl
  · exact normalize_effort_monotone.2 (.sequence (.quote .identity) (.constant .Apply))
      0 1 .Time .identity (by decide) rfl rfl

/-- A stuck value is its own flat spine. -/
theorem flat_of_value_atom (v : Term) (h : isValueAtom v = true) : v.flat = [v] := by
  cases v <;> simp [isValueAtom] at h <;> rfl

/-- Rebuilding a list of atomic words and flattening again is the
identity. -/
theorem flat_unflatten (l : List Term) (h : ∀ v ∈ l, v.flat = [v]) :
    (unflatten l).flat = l := by
  induction l with
  | nil => rfl
  | cons t rest ih =>
    cases rest with
    | nil => simpa [unflatten] using h t (by simp)
    | cons u rest2 =>
      have ht := h t (by simp)
      have hr := ih (fun v hv => h v (by simp [hv]))
      simp [unflatten, Term.flat, ht, hr]

/-- Flattening a list of atomic words term by term gives the list
back. -/
theorem flatten_map_flat (l : List Term) (h : ∀ v ∈ l, v.flat = [v]) :
    (l.map Term.flat).flatten = l := by
  induction l with
  | nil => rfl
  | cons t rest ih =>
    have ht := h t (by simp)
    have hr := ih (fun v hv => h v (by simp [hv]))
    simp [ht, hr]

/-- The redex scan passes over a prefix of stuck values, accumulating
them. -/
theorem findRedex_values (exec : Bool) :
    ∀ (vs done rest : List Term), (∀ v ∈ vs, isValueAtom v = true) →
      findRedex exec done (vs ++ rest) = findRedex exec (vs.reverse ++ done) rest := by
  intro vs
  induction vs with
  | nil => intro done rest _; simp
  | cons v vs2 ih =>
    intro done rest h
    have hv := h v (by simp)
    have hrec := ih (v :: done) rest (fun x hx => h x (by simp [hx]))
    cases v <;> simp [isValueAtom] at hv <;>
      simp [findRedex, hrec]

/-- On a term that is a row of stuck values followed by a bang,
`normalize` fires nothing: the bang is left stuck and the term comes back
unchanged, at every quota. -/
theorem normalize_leaves_bang_stuck (fuel : Nat) (vs : List Term)
    (hvs : ∀ v ∈ vs, isValueAtom v = true) :
    Term.normalize fuel (unflatten (vs ++ [.constant .Bang])) =
      .ok (unflatten (vs ++ [.constant .Bang])) := by
  have hatoms : ∀ v ∈ vs ++ [Term.constant .Bang], v.flat = [v] := by
    intro v hv
    rcases List.mem_append.mp hv with h1 | h2
    · exact flat_of_value_atom v (hvs v h1)
    · simp at h2; subst h2; rfl
  show run false noHandler fuel [] (unflatten (vs ++ [.constant .Bang])).flat = _
  rw [flat_unflatten _ hatoms, run_eq,
    findRedex_values false vs [] [.constant .Bang] hvs]
  simp [findRedex]

/-- On the same term, `execute` consumes the values and the bang,
handing the values to the handler and splicing its results in their
place. -/
theorem execute_splices_handler_result (h : HandlerFn) (fuel : Nat)
    (vs rs : List Term)
    (hvs : ∀ v ∈ vs, isValueAtom v = true)
    (hrs : ∀ r ∈ rs, isValueAtom r = true)
    (hh : h vs = .ok rs) (hfuel : 1 ≤ fuel) :
    Term.execute h fuel (unflatten (vs ++ [.constant .Bang])) =
      .ok (unflatten rs) := by
  have hatoms : ∀ v ∈ vs ++ [Term.constant .Bang], v.flat = [v] := by
    intro v hv
    rcases List.mem_append.mp hv with h1 | h2
    · exact flat_of_value_atom v (hvs v h1)
    · simp at h2; subst h2; rfl
  obtain ⟨f, rfl⟩ : ∃ f, fuel = f + 1 := by
    cases fuel with
    | zero => omega
    | succ f => exact ⟨f, rfl⟩
  show run true h (f + 1) [] (unflatten (vs ++ [.constant .Bang])).flat = _
  rw [flat_unflatten _ hatoms, run_eq]
  have hfr : findRedex true [] (vs ++ [.constant .Bang]) = .fire .Bang vs.reverse [] := by
    rw [findRedex_values true vs [] [.constant .Bang] hvs]
    simp [findRedex]
  have har : applyRule h .Bang vs.reverse [] = .ok ([], rs) := by
    have hflt := flatten_map_flat rs (fun r hr => flat_of_value_atom r (hrs r hr))
    simp [applyRule, hh, hflt]
  have hrun : run true h f [] rs = .ok (unflatten rs) := by
    rw [run_eq]
    have hsc : findRedex true [] (rs ++ []) = .finished rs.reverse := by
      rw [findRedex_values true rs [] [] hrs]
      simp [findRedex]
    simp only [List.append_nil] at hsc
    rw [hsc]
    simp
  rw [hfr]
  simp [har, hrun]

/-- A quotation holds a bang exactly when its body does. -/
theorem hasBang_quote (p : Term) : (Term.quote p).has_bang = p.has_bang := by
  simp [Term.has_bang, Term.hasP, Term.is_bang]

/-- A sequence holds a bang exactly when one of its parts does. -/
theorem hasBang_sequence (a b : Term) :
    (Term.sequence a b).has_bang = (a.has_bang || b.has_bang) := by
  simp [Term.has_bang, Term.hasP, Term.is_bang]

/-- Flattening a bang-free term yields bang-free words. -/
theorem hasBang_flat (t : Term) (h : t.has_bang = false) :
    ∀ x ∈ t.flat, x.has_bang = false := by
  induction t with
  | identity => intro x hx; simp [Term.flat] at hx
  | sequence a b iha ihb =>
    rw [hasBang_sequence] at h
    intro x hx
    rcases List.mem_append.mp (by simpa [Term.flat] using hx) with h1 | h1
    · exact iha (by simp_all) x h1
    · exact ihb (by simp_all) x h1
  | constant c => intro x hx; simp [Term.flat] at hx; subst hx; exact h
  | var v => intro x hx; simp [Term.flat] at hx; subst hx; exact h
  | comment s => intro x hx; simp [Term.flat] at hx; subst hx; exact h
  | quote b _ => intro x hx; simp [Term.flat] at hx; subst hx; exact h

/-- Rebuilding bang-free words yields a bang-free term. -/
theorem hasBang_unflatten (l : List Term) (h : ∀ x ∈ l, x.has_bang = false) :
    (unflatten l).has_bang = false := by
  induction l with
  | nil => rfl
  | cons t rest ih =>
    cases rest with
    | nil => exact h t (by simp)
    | cons u rest2 =>
      have ht := h t (by simp)
      have hr := ih (fun x hx => h x (by simp [hx]))
      simp [unflatten, hasBang_sequence, ht, hr]

/-- Both halves of a split at the first `Reset` come from the split
list. -/
theorem splitAtReset_mem :
    ∀ (l cap after : List Term), splitAtReset l = some (cap, after) →
      (∀ x ∈ cap, x ∈ l) ∧ (∀ x ∈ after, x ∈ l) := by
  intro l
  induction l with
  | nil => intro cap after h; simp [splitAtReset] at h
  | cons t rest ih =>
    intro cap after h
    by_cases ht : t = .constant .Reset
    · simp only [splitAtReset, if_pos ht] at h
      injection h with h2
      injection h2 with hcap hafter
      subst hcap; subst hafter
      exact ⟨by simp, fun x hx => by simp [hx]⟩
    · simp only [splitAtReset, if_neg ht] at h
      rw [Option.map_eq_some'] at h
      obtain ⟨⟨cap2, after2⟩, hsp, heq⟩ := h
      injection heq with h1 h2
      subst h1; subst h2
      obtain ⟨ha, hb⟩ := ih cap2 after2 hsp
      constructor
      · intro x hx
        rcases List.mem_cons.mp hx with h3 | h3
        · simp [h3]
        · exact List.mem_cons_of_mem _ (ha x h3)
      · intro x hx
        exact List.mem_cons_of_mem _ (hb x hx)

/-- The rule table consults the handler only at `Bang`. -/
theorem applyRule_nonbang (h1 h2 : HandlerFn) (c : Constant) (d rest : List Term)
    (hc : c ≠ .Bang) : applyRule h1 c d rest = applyRule h2 c d rest := by
  cases c with
  | Bang => exact absurd rfl hc
  | Apply =>
    cases d with
    | nil => rfl
    | cons v d2 => cases v <;> rfl
  | Quote => cases d <;> rfl
  | Compose =>
    cases d with
    | nil => rfl
    | cons v d2 =>
      cases d2 with
      | nil => cases v <;> rfl
      | cons w d3 => cases v <;> cases w <;> rfl
  | Copy => cases d <;> rfl
  | Drop => cases d <;> rfl
  | Swap =>
    cases d with
    | nil => rfl
    | cons v d2 => cases d2 <;> rfl
  | Shift =>
    cases d with
    | nil => rfl
    | cons v d2 => cases v <;> rfl
  | Reset => rfl

/-- A non-bang rewrite step preserves bang-freeness of the machine
state. -/
theorem applyRule_preserves_noBang (h : HandlerFn) (c : Constant)
    (d rest d2 todo2 : List Term) (hc : c ≠ .Bang)
    (hd : ∀ x ∈ d, x.has_bang = false) (hrest : ∀ x ∈ rest, x.has_bang = false)
    (hap : applyRule h c d rest = .ok (d2, todo2)) :
    (∀ x ∈ d2, x.has_bang = false) ∧ (∀ x ∈ todo2, x.has_bang = false) := by
  cases c with
  | Bang => exact absurd rfl hc
  | Reset =>
    simp [applyRule] at hap
    obtain ⟨h1, h2⟩ := hap
    subst h1; subst h2
    exact ⟨hd, hrest⟩
  | Apply =>
    cases d with
    | nil => simp [applyRule] at hap
    | cons v d3 =>
      cases v with
      | quote p =>
        simp [applyRule] at hap
        obtain ⟨h1, h2⟩ := hap
        subst h1; subst h2
        refine ⟨fun x hx => hd x (by simp [hx]), ?_⟩
        intro x hx
        rcases List.mem_append.mp hx with hx1 | hx1
        · have hp : p.has_bang = false := by
            have hv := hd (.quote p) (by simp)
            simpa [hasBang_quote] using hv
          exact hasBang_flat p hp x hx1
        · exact hrest x hx1
      | identity => simp [applyRule] at hap
      | constant c2 => simp [applyRule] at hap
      | var w => simp [applyRule] at hap
      | comment s => simp [applyRule] at hap
      | sequence a b => simp [applyRule] at hap
  | Quote =>
    cases d with
    | nil => simp [applyRule] at hap
    | cons v d3 =>
      simp [applyRule] at hap
      obtain ⟨h1, h2⟩ := hap
      subst h1; subst h2
      refine ⟨?_, hrest⟩
      intro x hx
      rcases List.mem_cons.mp hx with hx1 | hx1
      · subst hx1
        have hv := hd v (by simp)
        simpa [hasBang_quote] using hv
      · exact hd x (by simp [hx1])
  | Compose =>
    cases d with
    | nil => simp [applyRule] at hap
    | cons v d3 =>
      cases d3 with
      | nil =>
        cases v <;> simp [applyRule] at hap
      | cons w d4 =>
        cases v with
        | quote q =>
          cases w with
          | quote p =>
            simp [applyRule] at hap
            obtain ⟨h1, h2⟩ := hap
            subst h1; subst h2
            refine ⟨?_, hrest⟩
            intro x hx
            rcases List.mem_cons.mp hx with hx1 | hx1
            · subst hx1
              have hp : p.has_bang = false := by
                have hw := hd (.quote p) (by simp)
                simpa [hasBang_quote] using hw
              have hq : q.has_bang = false := by
                have hw := hd (.quote q) (by simp)
                simpa [hasBang_quote] using hw
              simp [hasBang_quote, hasBang_sequence, hp, hq]
            · exact hd x (by simp [hx1])
          | identity => simp [applyRule] at hap
          | constant c2 => simp [applyRule] at hap
          | var u => simp [applyRule] at hap
          | comment s => simp [applyRule] at hap
          | sequence a b => simp [applyRule] at hap
        | identity => simp [applyRule] at hap
        | constant c2 => simp [applyRule] at hap
        | var u => simp [applyRule] at hap
        | comment s => simp [applyRule] at hap
        | sequence a b => simp [applyRule] at hap
  | Copy =>
    cases d with
    | nil => simp [applyRule] at hap
    | cons v d3 =>
      simp [applyRule] at hap
      obtain ⟨h1, h2⟩ := hap
      subst h1; subst h2
      refine ⟨?_, hrest⟩
      intro x hx
      apply hd
      simp only [List.mem_cons] at hx ⊢
      tauto
  | Drop =>
    cases d with
    | nil => simp [applyRule] at hap
    | cons v d3 =>
      simp [applyRule] at hap
      obtain ⟨h1, h2⟩ := hap
      subst h1; subst h2
      exact ⟨fun x hx => hd x (by simp [hx]), hrest⟩
  | Swap =>
    cases d with
    | nil => simp [applyRule] at hap
    | cons v d3 =>
      cases d3 with
      | nil => simp [applyRule] at hap
      | cons w d4 =>
        simp [applyRule] at hap
        obtain ⟨h1, h2⟩ := hap
        subst h1; subst h2
        refine ⟨?_, hrest⟩
        intro x hx
        apply hd
        simp only [List.mem_cons] at hx ⊢
        tauto
  | Shift =>
    cases d with
    | nil => simp [applyRule] at hap
    | cons v d3 =>
      cases v with
      | quote p =>
        cases hsp : splitAtReset rest with
        | none => simp [applyRule, hsp] at hap
        | some pr =>
          obtain ⟨cap, after⟩ := pr
          simp [applyRule, hsp] at hap
          obtain ⟨h1, h2⟩ := hap
          subst h1; subst h2
          obtain ⟨hcap, hafter⟩ := splitAtReset_mem rest cap after hsp
          refine ⟨fun x hx => hd x (by simp [hx]), ?_⟩
          intro x hx
          rcases List.mem_cons.mp hx with hx1 | hx1
          · subst hx1
            rw [hasBang_quote]
            exact hasBang_unflatten cap (fun y hy => hrest y (hcap y hy))
          · rcases List.mem_append.mp hx1 with hx2 | hx2
            · have hp : p.has_bang = false := by
                have hv := hd (.quote p) (by simp)
                simpa [hasBang_quote] using hv
              exact hasBang_flat p hp x hx2
            · rcases List.mem_cons.mp hx2 with hx3 | hx3
              · subst hx3; rfl
              · exact hrest x (hafter x hx3)
      | identity => simp [applyRule] at hap
      | constant c2 => simp [applyRule] at hap
      | var u => simp [applyRule] at hap
      | comment s => simp [applyRule] at hap
      | sequence a b => simp [applyRule] at hap

/-- The fired combinator of a scan is a word of the scanned list. -/
theorem findRedex_fire_mem (exec : Bool) :
    ∀ (todo done rest d : List Term) (c : Constant),
      findRedex exec done todo = .fire c d rest → Term.constant c ∈ todo := by
  intro todo
  induction todo with
  | nil => intro done rest d c h; simp [findRedex] at h
  | cons t tail ih =>
    intro done rest d c h
    cases t with
    | identity =>
      exact List.mem_cons_of_mem _ (ih done rest d c (by simpa [findRedex] using h))
    | sequence a b => simp [findRedex] at h
    | constant c2 =>
      by_cases hb : c2 = .Bang ∧ exec = false
      · simp only [findRedex, if_pos hb] at h
        exact List.mem_cons_of_mem _ (ih (.constant c2 :: done) rest d c h)
      · simp only [findRedex, if_neg hb] at h
        injection h with h1 h2 h3
        subst h1
        simp
    | var v =>
      exact List.mem_cons_of_mem _ (ih (.var v :: done) rest d c (by simpa [findRedex] using h))
    | comment s =>
      exact List.mem_cons_of_mem _
        (ih (.comment s :: done) rest d c (by simpa [findRedex] using h))
    | quote b =>
      exact List.mem_cons_of_mem _
        (ih (.quote b :: done) rest d c (by simpa [findRedex] using h))

/-- On a bang-free word list the scans of `execute` and `normalize`
agree. -/
theorem findRedex_agree :
    ∀ (todo done : List Term), (∀ x ∈ todo, x.has_bang = false) →
      findRedex true done todo = findRedex false done todo := by
  intro todo
  induction todo with
  | nil => intro done _; rfl
  | cons t tail ih =>
    intro done hnb
    have htail : ∀ x ∈ tail, x.has_bang = false := fun x hx => hnb x (by simp [hx])
    cases t with
    | identity => simpa [findRedex] using ih done htail
    | sequence a b => simp [findRedex]
    | constant c =>
      have hcb : ¬ c = .Bang := by
        intro hEq
        subst hEq
        have h2 := hnb (.constant .Bang) (by simp)
        simp [Term.has_bang, Term.hasP, Term.is_bang] at h2
      simp [findRedex, hcb]
    | var v => simpa [findRedex] using ih (.var v :: done) htail
    | comment s => simpa [findRedex] using ih (.comment s :: done) htail
    | quote b => simpa [findRedex] using ih (.quote b :: done) htail

/-- Scanning a bang-free state fires over bang-free operands and pending
words. -/
theorem findRedex_fire_noBang (exec : Bool) :
    ∀ (todo done : List Term) (c : Constant) (d rest : List Term),
      (∀ x ∈ done, x.has_bang = false) → (∀ x ∈ todo, x.has_bang = false) →
      findRedex exec done todo = .fire c d rest →
      (∀ x ∈ d, x.has_bang = false) ∧ (∀ x ∈ rest, x.has_bang = false) := by
  intro todo
  induction todo with
  | nil => intro done c d rest _ _ h; simp [findRedex] at h
  | cons t tail ih =>
    intro done c d rest hdone hnb h
    have htail : ∀ x ∈ tail, x.has_bang = false := fun x hx => hnb x (by simp [hx])
    have hhead : t.has_bang = false := hnb t (by simp)
    cases t with
    | identity => exact ih done c d rest hdone htail (by simpa [findRedex] using h)
    | sequence a b => simp [findRedex] at h
    | constant c2 =>
      have hcb : ¬ (c2 = .Bang ∧ exec = false) := by
        intro hand
        obtain ⟨h1, _⟩ := hand
        subst h1
        simp [Term.has_bang, Term.hasP, Term.is_bang] at hhead
      simp only [findRedex, if_neg hcb] at h
      injection h with h1 h2 h3
      subst h2; subst h3
      exact ⟨hdone, htail⟩
    | var v =>
      refine ih (.var v :: done) c d rest ?_ htail (by simpa [findRedex] using h)
      intro x hx
      rcases List.mem_cons.mp hx with h1 | h1
      · subst h1; exact hhead
      · exact hdone x h1
    | comment s =>
      refine ih (.comment s :: done) c d rest ?_ htail (by simpa [findRedex] using h)
      intro x hx
      rcases List.mem_cons.mp hx with h1 | h1
      · subst h1; exact hhead
      · exact hdone x h1
    | quote b =>
      refine ih (.quote b :: done) c d rest ?_ htail (by simpa [findRedex] using h)
      intro x hx
      rcases List.mem_cons.mp hx with h1 | h1
      · subst h1; exact hhead
      · exact hdone x h1

/-- On a bang-free state the loops of `execute` and `normalize` agree,
whatever the handlers. -/
theorem run_agree (h1 h2 : HandlerFn) :
    ∀ (fuel : Nat) (done todo : List Term),
      (∀ x ∈ done, x.has_bang = false) → (∀ x ∈ todo, x.has_bang = false) →
      run true h1 fuel done todo = run false h2 fuel done todo := by
  intro fuel
  induction fuel with
  | zero =>
    intro done todo hd ht
    rw [run_eq, run_eq, findRedex_agree todo done ht]
  | succ f ih =>
    intro done todo hd ht
    rw [run_eq, run_eq, findRedex_agree todo done ht]
    cases hfr : findRedex false done todo with
    | finished d => rfl
    | fail e => rfl
    | fire c d rest =>
      have hmem := findRedex_fire_mem false todo done rest d c hfr
      have hcb : c ≠ .Bang := by
        intro hEq
        subst hEq
        have h3 := ht _ hmem
        simp [Term.has_bang, Term.hasP, Term.is_bang] at h3
      obtain ⟨hdd, hrr⟩ := findRedex_fire_noBang false todo done c d rest hd ht hfr
      simp only []
      rw [applyRule_nonbang h1 h2 c d rest hcb]
      cases har : applyRule h2 c d rest with
      | error e => rfl
      | ok pr =>
        obtain ⟨d2, todo2⟩ := pr
        obtain ⟨hd2, ht2⟩ :=
          applyRule_preserves_noBang h2 c d rest d2 todo2 hcb hdd hrr har
        simp only [har]
        exact ih d2 todo2 hd2 ht2

/-- C1: `normalize` never rewrites a bang redex — a row of stuck values
ending in a bang comes back unchanged at every quota — while `execute`,
when the handler answers with replacement terms, returns the term with
the bang and its operands removed and the handler's results spliced in
their place; and away from bang redexes (on any bang-free term) `execute`
and `normalize` apply identical rewrite rules, agreeing exactly. -/
theorem execute_refines_normalize_at_bang :
    (∀ (fuel : Nat) (vs : List Term), (∀ v ∈ vs, isValueAtom v = true) →
      Term.normalize fuel (unflatten (vs ++ [.constant .Bang])) =
        .ok (unflatten (vs ++ [.constant .Bang]))) ∧
    (∀ (h : HandlerFn) (fuel : Nat) (vs rs : List Term),
      (∀ v ∈ vs, isValueAtom v = true) → (∀ r ∈ rs, isValueAtom r = true) →
      h vs = .ok rs → 1 ≤ fuel →
      Term.execute h fuel (unflatten (vs ++ [.constant .Bang])) = .ok (unflatten rs)) ∧
    (∀ (h : HandlerFn) (fuel : Nat) (t : Term), t.has_bang = false →
      Term.execute h fuel t = Term.normalize fuel t) := by
  refine ⟨normalize_leaves_bang_stuck, execute_splices_handler_result, ?_⟩
  intro h fuel t hnb
  exact run_agree h noHandler fuel [] t.flat (by simp) (hasBang_flat t hnb)

/-- C1 witness: the theorem evaluated at a concrete bang scenario and a
concrete bang-free term. -/
theorem execute_refines_normalize_at_bang_witness :
    Term.normalize 5 (unflatten ([.comment "x"] ++ [.constant .Bang])) =
      .ok (unflatten ([.comment "x"] ++ [.constant .Bang])) ∧
    Term.execute (fun _ => .ok [.comment "r"]) 1
        (unflatten ([.comment "x"] ++ [.constant .Bang])) =
      .ok (unflatten [.comment "r"]) ∧
    Term.execute (fun _ => .ok [.comment "r"]) 3
        (.sequence (.comment "a") (.sequence (.comment "b") (.constant .Swap))) =
      Term.normalize 3
        (.sequence (.comment "a") (.sequence (.comment "b") (.constant .Swap))) := by
  refine ⟨execute_refines_normalize_at_bang.1 5 [.comment "x"] (by decide), ?_, ?_⟩
  · exact execute_refines_normalize_at_bang.2.1 (fun _ => .ok [.comment "r"]) 1
      [.comment "x"] [.comment "r"] (by decide) (by decide) rfl (by decide)
  · exact execute_refines_normalize_at_bang.2.2 (fun _ => .ok [.comment "r"]) 3
      (.sequence (.comment "a") (.sequence (.comment "b") (.constant .Swap))) (by decide)

/-- Membership in one marking round: already marked, or a child of a
marked store entry. -/
theorem mem_markStep_iff (s : Store) (m : Finset Nat) (x : Nat) :
    x ∈ markStep s m ↔
      x ∈ m ∨ ∃ a n, (a, n) ∈ s.nodes ∧ a ∈ m ∧ x ∈ Node.children n := by
  constructor
  · intro hx
    rcases Finset.mem_union.mp hx with h1 | h1
    · exact Or.inl h1
    · obtain ⟨p, hp, hxp⟩ := Finset.mem_biUnion.mp h1
      obtain ⟨a, n⟩ := p
      have hp3 := List.mem_filter.mp (List.mem_toFinset.mp hp)
      refine Or.inr ⟨a, n, hp3.1, ?_, List.mem_toFinset.mp hxp⟩
      simpa using hp3.2
  · intro hx
    rcases hx with h1 | ⟨a, n, hmem, ham, hch⟩
    · exact Finset.mem_union_left _ h1
    · refine Finset.mem_union_right _
        (Finset.mem_biUnion.mpr ⟨(a, n), ?_, List.mem_toFinset.mpr hch⟩)
      exact List.mem_toFinset.mpr (List.mem_filter.mpr ⟨hmem, by simpa using ham⟩)

/-- Marking only adds. -/
theorem subset_markStep (s : Store) (m : Finset Nat) : m ⊆ markStep s m :=
  Finset.subset_union_left

/-- One marking round stays inside the marked set and the store's child
universe. -/
theorem markStep_subset_closure (s : Store) (m : Finset Nat) :
    markStep s m ⊆ m ∪ s.childUniverse := by
  intro x hx
  rcases (mem_markStep_iff s m x).mp hx with h1 | ⟨a, n, hmem, _, hch⟩
  · exact Finset.mem_union_left _ h1
  · refine Finset.mem_union_right _ (Finset.mem_biUnion.mpr
      ⟨(a, n), List.mem_toFinset.mpr hmem, List.mem_toFinset.mpr hch⟩)

/-- The marking chain grows. -/
theorem iterate_markStep_grow (s : Store) (init : Finset Nat) (k : Nat) :
    (markStep s)^[k] init ⊆ (markStep s)^[k + 1] init := by
  rw [Function.iterate_succ_apply']
  exact subset_markStep s _

/-- The start of the chain is below every stage. -/
theorem init_subset_iterate_markStep (s : Store) (init : Finset Nat) (k : Nat) :
    init ⊆ (markStep s)^[k] init := by
  induction k with
  | zero => exact subset_rfl
  | succ k ih => exact ih.trans (iterate_markStep_grow s init k)

/-- Every stage of the chain stays inside the finite universe. -/
theorem iterate_markStep_subset_universe (s : Store) (init : Finset Nat) (k : Nat) :
    (markStep s)^[k] init ⊆ init ∪ s.childUniverse := by
  induction k with
  | zero => exact Finset.subset_union_left
  | succ k ih =>
    rw [Function.iterate_succ_apply']
    exact (markStep_subset_closure s _).trans
      (Finset.union_subset (ih.trans subset_rfl) Finset.subset_union_right)

/-- A stalled chain stays stalled. -/
theorem iterate_markStep_fix_propagates (s : Store) (init : Finset Nat) (j : Nat)
    (hfix : (markStep s)^[j + 1] init = (markStep s)^[j] init) :
    ∀ k, (markStep s)^[j + k] init = (markStep s)^[j] init := by
  intro k
  induction k with
  | zero => rfl
  | succ k ih =>
    have h1 : j + (k + 1) = (j + k) + 1 := by omega
    rw [h1, Function.iterate_succ_apply', ih,
      ← Function.iterate_succ_apply' (markStep s) j init, hfix]

/-- The chain stalls within as many rounds as the universe has
elements. -/
theorem iterate_markStep_exists_fix (s : Store) (init : Finset Nat) :
    ∃ j ≤ (init ∪ s.childUniverse).card,
      (markStep s)^[j + 1] init = (markStep s)^[j] init := by
  have aux : ∀ k, (∃ j ≤ k, (markStep s)^[j + 1] init = (markStep s)^[j] init) ∨
      init.card + k + 1 ≤ ((markStep s)^[k + 1] init).card := by
    intro k
    induction k with
    | zero =>
      by_cases h : (markStep s)^[1] init = (markStep s)^[0] init
      · exact Or.inl ⟨0, Nat.le_refl 0, h⟩
      · refine Or.inr ?_
        have hss : (markStep s)^[0] init ⊂ (markStep s)^[1] init :=
          ⟨iterate_markStep_grow s init 0, fun hsub => h (Finset.Subset.antisymm hsub (iterate_markStep_grow s init 0))⟩
        have := Finset.card_lt_card hss
        simpa using this
    | succ k ih =>
      rcases ih with ⟨j, hj, hfix⟩ | hcard
      · exact Or.inl ⟨j, hj.trans (Nat.le_succ k), hfix⟩
      · by_cases h : (markStep s)^[k + 1 + 1] init = (markStep s)^[k + 1] init
        · exact Or.inl ⟨k + 1, Nat.le_refl _, h⟩
        · refine Or.inr ?_
          have hss : (markStep s)^[k + 1] init ⊂ (markStep s)^[k + 1 + 1] init :=
            ⟨iterate_markStep_grow s init (k + 1),
              fun hsub => h (Finset.Subset.antisymm hsub (iterate_markStep_grow s init (k + 1)))⟩
          have h2 := Finset.card_lt_card hss
          omega
  rcases aux (init ∪ s.childUniverse).card with ⟨j, hj, hfix⟩ | hcard
  · exact ⟨j, hj, hfix⟩
  · have h3 : ((markStep s)^[(init ∪ s.childUniverse).card + 1] init).card ≤
        (init ∪ s.childUniverse).card :=
      Finset.card_le_card (iterate_markStep_subset_universe s init _)
    omega

/-- The saturated mark set is a fixed point of the marking round. -/
theorem markStep_reachFinset (s : Store) (init : Finset Nat) :
    markStep s (reachFinset s init) = reachFinset s init := by
  obtain ⟨j, hj, hfix⟩ := iterate_markStep_exists_fix s init
  have hN : ∀ k, (markStep s)^[j + k] init = (markStep s)^[j] init :=
    iterate_markStep_fix_propagates s init j hfix
  have h1 : reachFinset s init = (markStep s)^[j] init := by
    have := hN ((init ∪ s.childUniverse).card - j)
    have h2 : j + ((init ∪ s.childUniverse).card - j) = (init ∪ s.childUniverse).card := by
      omega
    rw [h2] at this
    exact this
  rw [h1, ← Function.iterate_succ_apply' (markStep s) j init]
  exact hfix

/-- Every marked address is reachable from the roots or the
Environment. -/
theorem mem_liveSet_reaches (s : Store) (roots : List Nat) (a : Nat)
    (h : a ∈ liveSet s roots) : Reaches s roots a := by
  have aux : ∀ (k : Nat) (x : Nat),
      x ∈ (markStep s)^[k] (roots.toFinset ∪ s.envAddrs) → Reaches s roots x := by
    intro k
    induction k with
    | zero =>
      intro x hx
      rcases Finset.mem_union.mp hx with h1 | h1
      · exact Reaches.root (List.mem_toFinset.mp h1)
      · obtain ⟨p, hp, hpx⟩ := List.mem_map.mp (List.mem_toFinset.mp h1)
        obtain ⟨kk, v⟩ := p
        cases hpx
        exact Reaches.env hp
    | succ k ih =>
      intro x hx
      rw [Function.iterate_succ_apply'] at hx
      rcases (mem_markStep_iff s _ x).mp hx with h1 | ⟨b, n, hmem, hbm, hch⟩
      · exact ih x h1
      · exact Reaches.child (ih b hbm) hmem hch
  exact aux _ a h

/-- Every address reachable from the roots or the Environment is
marked. -/
theorem reaches_mem_liveSet (s : Store) (roots : List Nat) (a : Nat)
    (h : Reaches s roots a) : a ∈ liveSet s roots := by
  induction h with
  | root hr =>
    exact init_subset_iterate_markStep s _ _
      (Finset.mem_union_left _ (List.mem_toFinset.mpr hr))
  | env he =>
    refine init_subset_iterate_markStep s _ _
      (Finset.mem_union_right _ (List.mem_toFinset.mpr ?_))
    exact List.mem_map.mpr ⟨_, he, rfl⟩
  | child _ hmem hch ih =>
    rw [liveSet] at ih ⊢
    rw [← markStep_reachFinset s (roots.toFinset ∪ s.envAddrs)]
    exact (mem_markStep_iff s _ _).mpr (Or.inr ⟨_, _, hmem, ih, hch⟩)

/-- Marking computes exactly reachability. -/
theorem reaches_iff_mem_liveSet (s : Store) (roots : List Nat) (a : Nat) :
    Reaches s roots a ↔ a ∈ liveSet s roots :=
  ⟨reaches_mem_liveSet s roots a, mem_liveSet_reaches s roots a⟩

/-- C2: collection safety — for every root set (the empty one included),
after `collect` every address reachable from the roots or from an
Environment binding reads exactly as before, every address reachable from
neither is gone from the store, and the Environment itself is
untouched. -/
theorem collect_safety :
    ∀ (s : Store) (roots : List Nat) (a : Nat),
      (Reaches s roots a → (s.collect roots).lookupNode a = s.lookupNode a) ∧
      (¬ Reaches s roots a → (s.collect roots).lookupNode a = none) ∧
      (s.collect roots).env = s.env := by
  intro s roots a
  have hlk : (s.collect roots).lookupNode a =
      if a ∈ liveSet s roots then s.lookupNode a else none := by
    have h1 := lookup_filter_key (fun x => decide (x ∈ liveSet s roots)) s.nodes a
    simp only [decide_eq_true_eq] at h1
    exact h1
  refine ⟨?_, ?_, rfl⟩
  · intro hr
    rw [hlk, if_pos (reaches_mem_liveSet s roots a hr)]
  · intro hr
    rw [hlk, if_neg (fun hm => hr (mem_liveSet_reaches s roots a hm))]

/-- C2 witness: the theorem evaluated at a concrete store — roots keep
their descendants, an Environment binding survives a collection with no
roots, and garbage disappears. -/
theorem collect_safety_witness :
    ((⟨4, [(0, .quote 1), (1, .comment "x"), (2, .comment "y"), (3, .var "z")],
        [("k", 3)]⟩ : Store).collect [0]).lookupNode 1 = some (.comment "x") ∧
    ((⟨4, [(0, .quote 1), (1, .comment "x"), (2, .comment "y"), (3, .var "z")],
        [("k", 3)]⟩ : Store).collect []).lookupNode 3 = some (.var "z") ∧
    ((⟨4, [(0, .quote 1), (1, .comment "x"), (2, .comment "y"), (3, .var "z")],
        [("k", 3)]⟩ : Store).collect [0]).lookupNode 2 = none := by
  refine ⟨?_, ?_, ?_⟩
  · have h := (collect_safety
      ⟨4, [(0, .quote 1), (1, .comment "x"), (2, .comment "y"), (3, .var "z")], [("k", 3)]⟩
      [0] 1).1
    have hreach : Reaches
        ⟨4, [(0, .quote 1), (1, .comment "x"), (2, .comment "y"), (3, .var "z")], [("k", 3)]⟩
        [0] 1 :=
      @Reaches.child
        ⟨4, [(0, .quote 1), (1, .comment "x"), (2, .comment "y"), (3, .var "z")], [("k", 3)]⟩
        [0] 0 1 (Node.quote 1) (Reaches.root (by simp)) (by simp) (by simp [Node.children])
    rw [h hreach]
    rfl
  · have h := (collect_safety
      ⟨4, [(0, .quote 1), (1, .comment "x"), (2, .comment "y"), (3, .var "z")], [("k", 3)]⟩
      [] 3).1
    have hreach : Reaches
        ⟨4, [(0, .quote 1), (1, .comment "x"), (2, .comment "y"), (3, .var "z")], [("k", 3)]⟩
        [] 3 :=
      Reaches.env (show (("k", 3) : String × Nat) ∈ _ from by simp)
    rw [h hreach]
    rfl
  · have h := (collect_safety
      ⟨4, [(0, .quote 1), (1, .comment "x"), (2, .comment "y"), (3, .var "z")], [("k", 3)]⟩
      [0] 2).2.1
    refine h ?_
    intro hr
    cases hr with
    | root hx => simp at hx
    | env hx => simp at hx
    | child hra hmem hch =>
      simp at hmem
      rcases hmem with ⟨h1, h2⟩ | ⟨h1, h2⟩ | ⟨h1, h2⟩ | ⟨h1, h2⟩ <;> subst h2 <;>
        simp [Node.children] at hch
